import Mathlib

/-!
Verification of the Rapprochement Bancaire reconciliation system.

The repository's visible source (`main.py`) is the FastAPI service layer:
CORS middleware, a health-check endpoint, and route registration.  The
five-tier reconciliation engine itself lives in the `routes/*` modules that
`main.py` imports; those modules are not part of the visible source, so the
engine is modelled here from the design specification, while the service
layer (`health_check`, `add_cors_headers`) is embedded directly from
`main.py`.
-/

namespace Rapproch

/-- Modelled from the spec: the two record sources (§3 Transaction.source). -/
inductive Source where
  | statement
  | ledger
deriving DecidableEq

/-- Modelled from the spec: one statement or ledger line after normalization
(§3).  Amounts are signed minor-unit integers; value dates are day numbers;
`rowId` is the stable input-row identifier. -/
structure Transaction where
  source : Source
  amount : Int
  valueDate : Nat
  accountCode : String
  reference : String
  rowId : Nat
deriving DecidableEq

/-- Modelled from the spec: the engine's configuration surface with its
stated defaults (§6): date-window days 3, tier-4 max group size 4, tier-5
acceptance threshold 80, amount rounding tolerance 1 minor unit. -/
structure Config where
  dateWindow : Nat := 3
  maxGroupSize : Nat := 4
  threshold : Nat := 80
  tolerance : Nat := 1
deriving DecidableEq

/-- Modelled from the spec: an accepted match group (§3): member
transactions on each side, tier of origin, confidence score, the rule that
fired, and the reconciliation number assigned on acceptance. -/
structure MatchGroup where
  tier : Nat
  confidence : Nat
  rule : String
  stmts : List Transaction
  ledgs : List Transaction
  reconNum : Nat := 0
  reconStr : String := ""
deriving DecidableEq

/-- Modelled from the spec: suspense reason codes (§3 SuspenseEntry). -/
inductive Reason where
  | duplicateCandidate
  | ambiguousAmount
  | belowConfidenceThreshold
  | noCounterpart
deriving DecidableEq

/-- Modelled from the spec: a suspense entry (§3): the transaction, its
reason code and its resolution status (initially open). -/
structure SuspenseEntry where
  txn : Transaction
  reason : Reason
  status : String := "open"
deriving DecidableEq

/-- Absolute distance between two value dates, in days. -/
def dateDist (s l : Transaction) : Nat :=
  ((s.valueDate : Int) - (l.valueDate : Int)).natAbs

/-- Boolean lexicographic order on pairs of naturals: strictly smaller first
component, or equal first components and `≤` on the second. -/
def lexLe (a b : Nat × Nat) : Bool :=
  decide (a.1 < b.1) || (decide (a.1 = b.1) && decide (a.2 ≤ b.2))

theorem lexLe_iff (a b : Nat × Nat) :
    lexLe a b = true ↔ a.1 < b.1 ∨ (a.1 = b.1 ∧ a.2 ≤ b.2) := by
  simp [lexLe]

theorem lexLe_total (a b : Nat × Nat) : lexLe a b = true ∨ lexLe b a = true := by
  simp only [lexLe_iff]; omega

theorem lexLe_trans {a b c : Nat × Nat} (h1 : lexLe a b = true)
    (h2 : lexLe b c = true) : lexLe a c = true := by
  simp only [lexLe_iff] at h1 h2 ⊢; omega

/-- Modelled from the spec: the deterministic within-tier tie-break key
(§4.2): prefer the candidate with the closest value date, then the lowest
ledger row identifier. -/
def tieKey (s l : Transaction) : Nat × Nat :=
  (dateDist s l, l.rowId)

/-- `tieBetter s a b` holds when ledger candidate `a` is preferred over (or
ties with) `b` for statement line `s` under the spec's tie-break order. -/
def tieBetter (s a b : Transaction) : Bool :=
  lexLe (tieKey s a) (tieKey s b)

/-- Deterministic selection of the best eligible candidate from a pool:
scan the pool, keep the candidate that the preference relation `bf` ranks
best (the earliest one on ties), and return it with the rest of the pool. -/
def selectBy (p : Transaction → Bool) (bf : Transaction → Transaction → Bool) :
    List Transaction → Option (Transaction × List Transaction)
  | [] => none
  | x :: xs =>
    match selectBy p bf xs with
    | none => if p x then some (x, xs) else none
    | some (y, ys) =>
      if p x then
        if bf x y then some (x, xs) else some (y, x :: ys)
      else some (y, x :: ys)

theorem selectBy_perm {p bf} : ∀ {l : List Transaction} {y ys},
    selectBy p bf l = some (y, ys) → (y :: ys).Perm l := by
  intro l
  induction l with
  | nil => intro y ys h; simp [selectBy] at h
  | cons x xs ih =>
    intro y ys h
    simp only [selectBy] at h
    cases hrec : selectBy p bf xs with
    | none =>
      rw [hrec] at h
      by_cases hp : p x = true
      · simp [hp] at h
        obtain ⟨hy, hys⟩ := h
        subst hy; subst hys; exact List.Perm.refl _
      · simp [hp] at h
    | some val =>
      obtain ⟨y0, ys0⟩ := val
      rw [hrec] at h
      by_cases hp : p x = true
      · by_cases hb : bf x y0 = true
        · simp [hp, hb] at h
          obtain ⟨hy, hys⟩ := h
          subst hy; subst hys; exact List.Perm.refl _
        · simp [hp, hb] at h
          obtain ⟨hy, hys⟩ := h
          subst hy; subst hys
          exact (List.Perm.swap x y0 ys0).trans (List.Perm.cons x (ih hrec))
      · simp [hp] at h
        obtain ⟨hy, hys⟩ := h
        subst hy; subst hys
        exact (List.Perm.swap x y0 ys0).trans (List.Perm.cons x (ih hrec))

theorem selectBy_prop {p bf} : ∀ {l : List Transaction} {y ys},
    selectBy p bf l = some (y, ys) → p y = true := by
  intro l
  induction l with
  | nil => intro y ys h; simp [selectBy] at h
  | cons x xs ih =>
    intro y ys h
    simp only [selectBy] at h
    cases hrec : selectBy p bf xs with
    | none =>
      rw [hrec] at h
      by_cases hp : p x = true
      · simp [hp] at h; obtain ⟨hy, _⟩ := h; subst hy; exact hp
      · simp [hp] at h
    | some val =>
      obtain ⟨y0, ys0⟩ := val
      rw [hrec] at h
      by_cases hp : p x = true
      · by_cases hb : bf x y0 = true
        · simp [hp, hb] at h; obtain ⟨hy, _⟩ := h; subst hy; exact hp
        · simp [hp, hb] at h; obtain ⟨hy, _⟩ := h; subst hy; exact ih hrec
      · simp [hp] at h; obtain ⟨hy, _⟩ := h; subst hy; exact ih hrec

theorem selectBy_none {p bf} : ∀ {l : List Transaction},
    selectBy p bf l = none → ∀ z ∈ l, p z = false := by
  intro l
  induction l with
  | nil => intro _ z hz; simp at hz
  | cons x xs ih =>
    intro h z hz
    simp only [selectBy] at h
    cases hrec : selectBy p bf xs with
    | none =>
      rw [hrec] at h
      by_cases hp : p x = true
      · simp [hp] at h
      · rcases List.mem_cons.mp hz with hzx | hzxs
        · subst hzx; simpa using hp
        · exact ih hrec z hzxs
    | some val =>
      obtain ⟨y0, ys0⟩ := val
      rw [hrec] at h
      by_cases hp : p x = true
      · by_cases hb : bf x y0 = true
        · simp [hp, hb] at h
        · simp [hp, hb] at h
      · simp [hp] at h

theorem selectBy_best {p bf}
    (htot : ∀ a b, bf a b = true ∨ bf b a = true)
    (htrans : ∀ a b c, bf a b = true → bf b c = true → bf a c = true) :
    ∀ {l : List Transaction} {y ys}, selectBy p bf l = some (y, ys) →
      ∀ z ∈ l, p z = true → bf y z = true := by
  intro l
  induction l with
  | nil => intro y ys h; simp [selectBy] at h
  | cons x xs ih =>
    intro y ys h z hz hpz
    have hrefl : ∀ a, bf a a = true := by
      intro a; rcases htot a a with ha | ha <;> exact ha
    simp only [selectBy] at h
    cases hrec : selectBy p bf xs with
    | none =>
      rw [hrec] at h
      by_cases hp : p x = true
      · simp [hp] at h
        obtain ⟨hy, _⟩ := h; subst hy
        rcases List.mem_cons.mp hz with hzx | hzxs
        · subst hzx; exact hrefl _
        · exact absurd hpz (by simp [selectBy_none hrec z hzxs])
      · simp [hp] at h
    | some val =>
      obtain ⟨y0, ys0⟩ := val
      rw [hrec] at h
      by_cases hp : p x = true
      · by_cases hb : bf x y0 = true
        · simp [hp, hb] at h
          obtain ⟨hy, _⟩ := h; subst hy
          rcases List.mem_cons.mp hz with hzx | hzxs
          · subst hzx; exact hrefl _
          · exact htrans _ _ _ hb (ih hrec z hzxs hpz)
        · simp [hp, hb] at h
          obtain ⟨hy, _⟩ := h; subst hy
          rcases List.mem_cons.mp hz with hzx | hzxs
          · subst hzx
            rcases htot z y0 with hxy | hyx
            · exact absurd hxy hb
            · exact hyx
          · exact ih hrec z hzxs hpz
      · simp [hp] at h
        obtain ⟨hy, _⟩ := h; subst hy
        rcases List.mem_cons.mp hz with hzx | hzxs
        · subst hzx; exact absurd hpz (by simp [hp])
        · exact ih hrec z hzxs hpz

/-- Amounts are equal within the rounding tolerance (in minor units). -/
def amountClose (tol : Nat) (a b : Int) : Bool :=
  decide ((a - b).natAbs ≤ tol)

/-- Modelled from the spec: Tier 1 rule (§4.2): same account code, same
amount within the rounding tolerance, identical free-text reference. -/
def elig1 (cfg : Config) (s l : Transaction) : Bool :=
  decide (s.accountCode = l.accountCode) &&
    amountClose cfg.tolerance s.amount l.amount &&
    decide (s.reference = l.reference)

/-- Modelled from the spec: Tier 2 rule (§4.2): same account code,
identical amount, value dates within the configurable window. -/
def elig2 (cfg : Config) (s l : Transaction) : Bool :=
  decide (s.accountCode = l.accountCode) &&
    decide (s.amount = l.amount) &&
    decide (dateDist s l ≤ cfg.dateWindow)

/-- Modelled from the spec: reference-string normalization for Tier 3
(§4.2): strip whitespace and punctuation (keep alphanumerics), case-fold. -/
def normRef (r : String) : String :=
  String.mk ((r.data.filter (fun c => c.isAlphanum)).map Char.toLower)

/-- Modelled from the spec: Tier 3 rule (§4.2): reference strings match
after normalization, amounts equal within the rounding tolerance. -/
def elig3 (cfg : Config) (s l : Transaction) : Bool :=
  decide (normRef s.reference = normRef l.reference) &&
    amountClose cfg.tolerance s.amount l.amount

/-- One-to-one tier step: for statement line `s`, select the best eligible
ledger candidate under the deterministic tie-break and form a MatchGroup
tagged with the tier, confidence and rule name. -/
def pairStep (tier conf : Nat) (rule : String) (elig : Transaction → Transaction → Bool)
    (s : Transaction) (ls : List Transaction) :
    Option (MatchGroup × List Transaction) :=
  match selectBy (elig s) (tieBetter s) ls with
  | none => none
  | some (l, rest) =>
    some ({ tier := tier, confidence := conf, rule := rule,
            stmts := [s], ledgs := [l] }, rest)

/-- Modelled from the spec: the common tier contract (§4.2)
`attempt(unmatchedStatement, unmatchedLedger) -> (MatchGroups, remaining
unmatched sets)` for the one-to-one tiers: each statement line is examined
in order; a match consumes the chosen ledger line, absence of a match
leaves the statement line in the unmatched residue (never an error). -/
def runPairTier (step : Transaction → List Transaction → Option (MatchGroup × List Transaction)) :
    List Transaction → List Transaction →
    List MatchGroup × List Transaction × List Transaction
  | [], ls => ([], [], ls)
  | s :: rest, ls =>
    match step s ls with
    | none =>
      let r := runPairTier step rest ls
      (r.1, s :: r.2.1, r.2.2)
    | some (g, ls2) =>
      let r := runPairTier step rest ls2
      (g :: r.1, r.2.1, r.2.2)

/-- Statement-side members of a list of match groups, in order. -/
def stmtsOf (gs : List MatchGroup) : List Transaction :=
  gs.flatMap (fun g => g.stmts)

/-- Ledger-side members of a list of match groups, in order. -/
def ledgsOf (gs : List MatchGroup) : List Transaction :=
  gs.flatMap (fun g => g.ledgs)

@[simp] theorem stmtsOf_nil : stmtsOf [] = [] := rfl

@[simp] theorem stmtsOf_cons (g : MatchGroup) (gs : List MatchGroup) :
    stmtsOf (g :: gs) = g.stmts ++ stmtsOf gs := rfl

@[simp] theorem stmtsOf_append (gs hs : List MatchGroup) :
    stmtsOf (gs ++ hs) = stmtsOf gs ++ stmtsOf hs := by
  simp [stmtsOf]

@[simp] theorem ledgsOf_nil : ledgsOf [] = [] := rfl

@[simp] theorem ledgsOf_cons (g : MatchGroup) (gs : List MatchGroup) :
    ledgsOf (g :: gs) = g.ledgs ++ ledgsOf gs := rfl

@[simp] theorem ledgsOf_append (gs hs : List MatchGroup) :
    ledgsOf (gs ++ hs) = ledgsOf gs ++ ledgsOf hs := by
  simp [ledgsOf]

theorem pairStep_spec {t c rule elig s ls g rest}
    (h : pairStep t c rule elig s ls = some (g, rest)) :
    g.stmts = [s] ∧ (g.ledgs ++ rest).Perm ls ∧ g.tier = t ∧
      g.confidence = c ∧
      ∃ l, g.ledgs = [l] ∧ elig s l = true := by
  unfold pairStep at h
  cases hsel : selectBy (elig s) (tieBetter s) ls with
  | none => rw [hsel] at h; exact absurd h (by simp)
  | some val =>
    obtain ⟨l, ls2⟩ := val
    rw [hsel] at h
    simp only [Option.some.injEq, Prod.mk.injEq] at h
    obtain ⟨hg, hrest⟩ := h
    subst hrest
    refine ⟨by rw [← hg], ?_, by rw [← hg], by rw [← hg], l, by rw [← hg], selectBy_prop hsel⟩
    have : g.ledgs = [l] := by rw [← hg]
    rw [this]
    simpa using selectBy_perm hsel

/-- Conservation for the one-to-one tier runner: the statement members of
the produced groups together with the statement residue are a permutation
of the statement input, and likewise on the ledger side. -/
theorem runPairTier_perm {step}
    (hstep : ∀ s ls g rest, step s ls = some (g, rest) →
      g.stmts = [s] ∧ (g.ledgs ++ rest).Perm ls) :
    ∀ ss ls,
      (stmtsOf (runPairTier step ss ls).1 ++ (runPairTier step ss ls).2.1).Perm ss ∧
      (ledgsOf (runPairTier step ss ls).1 ++ (runPairTier step ss ls).2.2).Perm ls := by
  intro ss
  induction ss with
  | nil => intro ls; simp [runPairTier, stmtsOf, ledgsOf]
  | cons s rest ih =>
    intro ls
    cases hs : step s ls with
    | none =>
      obtain ⟨ih1, ih2⟩ := ih ls
      constructor
      · simpa [runPairTier, hs] using
          (List.perm_middle).trans (List.Perm.cons s ih1)
      · simpa [runPairTier, hs] using ih2
    | some val =>
      obtain ⟨g, ls2⟩ := val
      obtain ⟨hg1, hg2⟩ := hstep s ls g ls2 hs
      obtain ⟨ih1, ih2⟩ := ih ls2
      constructor
      · simp only [runPairTier, hs, stmtsOf_cons, List.append_assoc, hg1,
          List.singleton_append, List.cons_append]
        exact List.Perm.cons s ih1
      · simp only [runPairTier, hs, ledgsOf_cons, List.append_assoc]
        exact (List.Perm.append_left g.ledgs ih2).trans hg2

/-- The residue of the one-to-one tier runner contains no cross-eligible
pair: a leftover statement line has no eligible leftover ledger candidate
(otherwise the tier would have consumed it). -/
theorem runPairTier_residue {t c rule elig} :
    ∀ ss ls,
      ∀ s ∈ (runPairTier (pairStep t c rule elig) ss ls).2.1,
      ∀ l ∈ (runPairTier (pairStep t c rule elig) ss ls).2.2,
      elig s l = false := by
  intro ss
  induction ss with
  | nil => intro ls s hs; simp [runPairTier] at hs
  | cons s0 rest ih =>
    intro ls s hs l hl
    cases hstep : pairStep t c rule elig s0 ls with
    | none =>
      simp only [runPairTier, hstep] at hs hl
      rcases List.mem_cons.mp hs with hss | hss
      · subst hss
        have hnone : selectBy (elig s) (tieBetter s) ls = none := by
          unfold pairStep at hstep
          cases hsel : selectBy (elig s) (tieBetter s) ls with
          | none => rfl
          | some val => rw [hsel] at hstep; cases val; simp at hstep
        have hl_ls : l ∈ ls := by
          have hperm := (@runPairTier_perm (pairStep t c rule elig)
            (fun s' ls' g' rest' h' => ⟨(pairStep_spec h').1, (pairStep_spec h').2.1⟩)
            rest ls).2
          exact hperm.mem_iff.mp (List.mem_append_right _ hl)
        exact selectBy_none hnone l hl_ls
      · exact ih ls s hss l hl
    | some val =>
      obtain ⟨g, ls2⟩ := val
      simp only [runPairTier, hstep] at hs hl
      exact ih ls2 s hs l hl

/-- Sum of the signed amounts of a list of transactions. -/
def sumAmounts (l : List Transaction) : Int :=
  (l.map (fun t => t.amount)).sum

@[simp] theorem sumAmounts_nil : sumAmounts [] = 0 := rfl

@[simp] theorem sumAmounts_cons (t : Transaction) (l : List Transaction) :
    sumAmounts (t :: l) = t.amount + sumAmounts l := by
  simp [sumAmounts]

@[simp] theorem sumAmounts_append (l1 l2 : List Transaction) :
    sumAmounts (l1 ++ l2) = sumAmounts l1 + sumAmounts l2 := by
  simp [sumAmounts]

theorem sumAmounts_perm {l1 l2 : List Transaction} (h : l1.Perm l2) :
    sumAmounts l1 = sumAmounts l2 :=
  List.Perm.sum_eq (List.Perm.map _ h)

/-- All ways to split a pool into a chosen subset and the rest, preserving
order on both sides.  Used by the bounded Tier-4 combinatorial search. -/
def sublistsWithRest : List Transaction → List (List Transaction × List Transaction)
  | [] => [([], [])]
  | x :: xs =>
    (sublistsWithRest xs).map (fun p => (x :: p.1, p.2)) ++
      (sublistsWithRest xs).map (fun p => (p.1, x :: p.2))

theorem sublistsWithRest_perm :
    ∀ {l : List Transaction} {p : List Transaction × List Transaction},
      p ∈ sublistsWithRest l → (p.1 ++ p.2).Perm l := by
  intro l
  induction l with
  | nil => intro p hp; simp [sublistsWithRest] at hp; simp [hp]
  | cons x xs ih =>
    intro p hp
    simp only [sublistsWithRest, List.mem_append, List.mem_map] at hp
    rcases hp with ⟨q, hq, hqp⟩ | ⟨q, hq, hqp⟩
    · subst hqp
      exact List.Perm.cons x (ih hq)
    · subst hqp
      exact (List.perm_middle).trans (List.Perm.cons x (ih hq))

/-- Extract the first element of the pool satisfying `p`, returning it with
the rest of the pool. -/
def extractFirst (p : Transaction → Bool) :
    List Transaction → Option (Transaction × List Transaction)
  | [] => none
  | x :: xs =>
    if p x then some (x, xs)
    else
      match extractFirst p xs with
      | none => none
      | some (y, ys) => some (y, x :: ys)

theorem extractFirst_spec {p} : ∀ {l : List Transaction} {y ys},
    extractFirst p l = some (y, ys) → p y = true ∧ (y :: ys).Perm l := by
  intro l
  induction l with
  | nil => intro y ys h; simp [extractFirst] at h
  | cons x xs ih =>
    intro y ys h
    simp only [extractFirst] at h
    by_cases hp : p x = true
    · simp [hp] at h
      obtain ⟨hy, hys⟩ := h
      subst hy; subst hys
      exact ⟨hp, List.Perm.refl _⟩
    · simp [hp] at h
      cases hrec : extractFirst p xs with
      | none => rw [hrec] at h; simp at h
      | some val =>
        obtain ⟨y0, ys0⟩ := val
        rw [hrec] at h
        simp only [Option.some.injEq, Prod.mk.injEq] at h
        obtain ⟨hy, hys⟩ := h
        subst hy; subst hys
        obtain ⟨hp0, hperm0⟩ := ih hrec
        exact ⟨hp0, (List.Perm.swap x y0 ys0).trans (List.Perm.cons x hperm0)⟩

/-- Modelled from the spec: Tier-4 search, direction one (§4.2): find a
nonempty set of further statement lines (bounded by the max group size,
counting the head line) whose sum together with the head line equals some
ledger entry's amount within tolerance; consume that ledger entry. -/
def tier4SearchA (cfg : Config) (s : Transaction) (ls : List Transaction) :
    List (List Transaction × List Transaction) →
    Option (List Transaction × List Transaction × Transaction × List Transaction)
  | [] => none
  | (ex, rs) :: more =>
    if ex ≠ [] ∧ ex.length + 1 ≤ cfg.maxGroupSize then
      match extractFirst
          (fun l => amountClose cfg.tolerance (s.amount + sumAmounts ex) l.amount) ls with
      | some (l, rl) => some (ex, rs, l, rl)
      | none => tier4SearchA cfg s ls more
    else tier4SearchA cfg s ls more

theorem tier4SearchA_spec {cfg s ls} :
    ∀ {cands : List (List Transaction × List Transaction)} {ex rs l rl},
      tier4SearchA cfg s ls cands = some (ex, rs, l, rl) →
      (ex, rs) ∈ cands ∧
        extractFirst
          (fun l => amountClose cfg.tolerance (s.amount + sumAmounts ex) l.amount) ls
          = some (l, rl) ∧
        ex ≠ [] ∧ ex.length + 1 ≤ cfg.maxGroupSize := by
  intro cands
  induction cands with
  | nil => intro ex rs l rl h; simp [tier4SearchA] at h
  | cons c more ih =>
    intro ex rs l rl h
    obtain ⟨ex0, rs0⟩ := c
    simp only [tier4SearchA] at h
    by_cases hc : ex0 ≠ [] ∧ ex0.length + 1 ≤ cfg.maxGroupSize
    · rw [if_pos hc] at h
      cases hext : extractFirst
          (fun l => amountClose cfg.tolerance (s.amount + sumAmounts ex0) l.amount) ls with
      | none =>
        rw [hext] at h
        obtain ⟨h1, h2, h3⟩ := ih h
        exact ⟨List.mem_cons_of_mem _ h1, h2, h3⟩
      | some val =>
        obtain ⟨l0, rl0⟩ := val
        rw [hext] at h
        simp only [Option.some.injEq, Prod.mk.injEq] at h
        obtain ⟨he, hr, hl, hrl⟩ := h
        subst he; subst hr; subst hl; subst hrl
        exact ⟨List.mem_cons_self _ _, hext, hc⟩
    · rw [if_neg hc] at h
      obtain ⟨h1, h2, h3⟩ := ih h
      exact ⟨List.mem_cons_of_mem _ h1, h2, h3⟩

/-- Modelled from the spec: Tier-4 search, direction two (§4.2): find a set
of at least two ledger lines, bounded by the max group size, whose sum
equals the head statement line's amount within tolerance. -/
def tier4SearchB (cfg : Config) (s : Transaction) :
    List (List Transaction × List Transaction) →
    Option (List Transaction × List Transaction)
  | [] => none
  | (sub, rl) :: more =>
    if 2 ≤ sub.length ∧ sub.length ≤ cfg.maxGroupSize ∧
        amountClose cfg.tolerance s.amount (sumAmounts sub) = true then
      some (sub, rl)
    else tier4SearchB cfg s more

theorem tier4SearchB_spec {cfg s} :
    ∀ {cands : List (List Transaction × List Transaction)} {sub rl},
      tier4SearchB cfg s cands = some (sub, rl) →
      (sub, rl) ∈ cands ∧ 2 ≤ sub.length ∧ sub.length ≤ cfg.maxGroupSize ∧
        amountClose cfg.tolerance s.amount (sumAmounts sub) = true := by
  intro cands
  induction cands with
  | nil => intro sub rl h; simp [tier4SearchB] at h
  | cons c more ih =>
    intro sub rl h
    obtain ⟨sub0, rl0⟩ := c
    simp only [tier4SearchB] at h
    by_cases hc : 2 ≤ sub0.length ∧ sub0.length ≤ cfg.maxGroupSize ∧
        amountClose cfg.tolerance s.amount (sumAmounts sub0) = true
    · rw [if_pos hc] at h
      simp only [Option.some.injEq, Prod.mk.injEq] at h
      obtain ⟨hs, hr⟩ := h
      subst hs; subst hr
      exact ⟨List.mem_cons_self _ _, hc⟩
    · rw [if_neg hc] at h
      obtain ⟨h1, h2⟩ := ih h
      exact ⟨List.mem_cons_of_mem _ h1, h2⟩

/-- Modelled from the spec: the Tier-4 step for one statement line (§4.2):
many-to-one grouping in either direction, combinatorial search bounded by
the configured max group size; confidence 60. -/
def step4 (cfg : Config) (s : Transaction) (rest ls : List Transaction) :
    Option (MatchGroup × List Transaction × List Transaction) :=
  match tier4SearchA cfg s ls (sublistsWithRest rest) with
  | some (ex, rs, l, rl) =>
    some ({ tier := 4, confidence := 60, rule := "many-to-one-grouping",
            stmts := s :: ex, ledgs := [l] }, rs, rl)
  | none =>
    match tier4SearchB cfg s (sublistsWithRest ls) with
    | some (sub, rl) =>
      some ({ tier := 4, confidence := 60, rule := "one-to-many-grouping",
              stmts := [s], ledgs := sub }, rest, rl)
    | none => none

theorem step4_spec {cfg s rest ls g rs rl}
    (h : step4 cfg s rest ls = some (g, rs, rl)) :
    (∃ ex, g.stmts = s :: ex ∧ (ex ++ rs).Perm rest) ∧
      (g.ledgs ++ rl).Perm ls ∧ g.tier = 4 := by
  unfold step4 at h
  cases hA : tier4SearchA cfg s ls (sublistsWithRest rest) with
  | some val =>
    obtain ⟨ex, rs0, l, rl0⟩ := val
    rw [hA] at h
    simp only [Option.some.injEq, Prod.mk.injEq] at h
    obtain ⟨hg, hrs, hrl⟩ := h
    subst hrs; subst hrl
    obtain ⟨hmem, hext, -, -⟩ := tier4SearchA_spec hA
    have hperm1 : (ex ++ rs0).Perm rest := sublistsWithRest_perm hmem
    obtain ⟨-, hperm2⟩ := extractFirst_spec hext
    refine ⟨⟨ex, by rw [← hg], hperm1⟩, ?_, by rw [← hg]⟩
    have : g.ledgs = [l] := by rw [← hg]
    rw [this]
    simpa using hperm2
  | none =>
    rw [hA] at h
    cases hB : tier4SearchB cfg s (sublistsWithRest ls) with
    | some val =>
      obtain ⟨sub, rl0⟩ := val
      rw [hB] at h
      simp only [Option.some.injEq, Prod.mk.injEq] at h
      obtain ⟨hg, hrs, hrl⟩ := h
      subst hrs; subst hrl
      obtain ⟨hmem, -, -, -⟩ := tier4SearchB_spec hB
      refine ⟨⟨[], by rw [← hg], by simp⟩, ?_, by rw [← hg]⟩
      have : g.ledgs = sub := by rw [← hg]
      rw [this]
      exact sublistsWithRest_perm hmem
    | none => rw [hB] at h; exact absurd h (by simp)

/-- Fuel-indexed Tier-4 runner; the fuel bounds the number of statement
lines processed and is instantiated with the pool's length, which the step
never increases. -/
def runTier4Aux (cfg : Config) : Nat → List Transaction → List Transaction →
    List MatchGroup × List Transaction × List Transaction
  | 0, ss, ls => ([], ss, ls)
  | Nat.succ n, ss, ls =>
    match ss with
    | [] => ([], [], ls)
    | s :: rest =>
      match step4 cfg s rest ls with
      | none =>
        let r := runTier4Aux cfg n rest ls
        (r.1, s :: r.2.1, r.2.2)
      | some (g, rs, rl) =>
        let r := runTier4Aux cfg n rs rl
        (g :: r.1, r.2.1, r.2.2)

/-- Modelled from the spec: Tier 4 (§4.2): many-to-one grouping over the
residue of Tier 3, consuming matched lines and leaving the rest unmatched. -/
def runTier4 (cfg : Config) (ss ls : List Transaction) :
    List MatchGroup × List Transaction × List Transaction :=
  runTier4Aux cfg ss.length ss ls

theorem runTier4Aux_perm (cfg : Config) :
    ∀ (n : Nat) (ss ls : List Transaction), ss.length ≤ n →
      (stmtsOf (runTier4Aux cfg n ss ls).1 ++ (runTier4Aux cfg n ss ls).2.1).Perm ss ∧
      (ledgsOf (runTier4Aux cfg n ss ls).1 ++ (runTier4Aux cfg n ss ls).2.2).Perm ls := by
  intro n
  induction n with
  | zero =>
    intro ss ls hlen
    have : ss = [] := List.length_eq_zero.mp (Nat.le_zero.mp hlen)
    subst this
    simp [runTier4Aux]
  | succ n ih =>
    intro ss ls hlen
    cases ss with
    | nil => simp [runTier4Aux]
    | cons s rest =>
      cases hs : step4 cfg s rest ls with
      | none =>
        have hlen2 : rest.length ≤ n := by
          simp only [List.length_cons] at hlen; omega
        obtain ⟨ih1, ih2⟩ := ih rest ls hlen2
        constructor
        · simpa [runTier4Aux, hs] using
            (List.perm_middle).trans (List.Perm.cons s ih1)
        · simpa [runTier4Aux, hs] using ih2
      | some val =>
        obtain ⟨g, rs, rl⟩ := val
        obtain ⟨⟨ex, hex, hperm1⟩, hperm2, -⟩ := step4_spec hs
        have hlen2 : rs.length ≤ n := by
          have := hperm1.length_eq
          simp only [List.length_append, List.length_cons] at this hlen
          omega
        obtain ⟨ih1, ih2⟩ := ih rs rl hlen2
        constructor
        · simp only [runTier4Aux, hs, stmtsOf_cons, List.append_assoc, hex,
            List.cons_append]
          refine List.Perm.cons s ?_
          exact (List.Perm.append_left ex ih1).trans hperm1
        · simp only [runTier4Aux, hs, ledgsOf_cons, List.append_assoc]
          exact (List.Perm.append_left g.ledgs ih2).trans hperm2

/-- Scores are clamped to the 0–100 interval the spec declares for the AI
scorer's result. -/
def clampScore (n : Nat) : Nat := min n 100

/-- Boolean lexicographic order on triples of naturals. -/
def lexLe3 (a b : Nat × Nat × Nat) : Bool :=
  decide (a.1 < b.1) || (decide (a.1 = b.1) && lexLe a.2 b.2)

theorem lexLe3_total (a b : Nat × Nat × Nat) :
    lexLe3 a b = true ∨ lexLe3 b a = true := by
  simp only [lexLe3, Bool.or_eq_true, Bool.and_eq_true, decide_eq_true_eq]
  rcases Nat.lt_trichotomy a.1 b.1 with h | h | h
  · left; left; exact h
  · rcases lexLe_total a.2 b.2 with h2 | h2
    · left; right; exact ⟨h, h2⟩
    · right; right; exact ⟨h.symm, h2⟩
  · right; left; exact h

theorem lexLe3_trans {a b c : Nat × Nat × Nat} (h1 : lexLe3 a b = true)
    (h2 : lexLe3 b c = true) : lexLe3 a c = true := by
  simp only [lexLe3, Bool.or_eq_true, Bool.and_eq_true, decide_eq_true_eq] at h1 h2 ⊢
  rcases h1 with h1 | ⟨h1e, h1l⟩
  · rcases h2 with h2 | ⟨h2e, _⟩
    · left; omega
    · left; omega
  · rcases h2 with h2 | ⟨h2e, h2l⟩
    · left; omega
    · right; exact ⟨by omega, lexLe_trans h1l h2l⟩

/-- Modelled from the spec: the Tier-5 candidate preference key: highest
clamped score first, then the spec's tie-break (closest value date, lowest
ledger row identifier). -/
def key5 (score : Transaction → Transaction → Nat) (s l : Transaction) :
    Nat × Nat × Nat :=
  (100 - clampScore (score s l), dateDist s l, l.rowId)

/-- `better5 score s a b`: ledger candidate `a` is ranked at least as high
as `b` for statement line `s` by the Tier-5 preference. -/
def better5 (score : Transaction → Transaction → Nat) (s a b : Transaction) : Bool :=
  lexLe3 (key5 score s a) (key5 score s b)

/-- Modelled from the spec: Tier 5 (§4.2, §4.3): delegate each remaining
statement line to the external scorer over the remaining ledger pool;
accept the best-scored pairing only if its score exceeds the acceptance
threshold, otherwise keep the line unmatched, remembering the rejected
suggestion (score and suggested ledger row) for suspense classification;
with an empty ledger pool the line has no counterpart.  The middle output
lists each unmatched statement line with its rejected suggestion, if any. -/
def runTier5 (cfg : Config) (score : Transaction → Transaction → Nat) :
    List Transaction → List Transaction →
    List MatchGroup × List (Transaction × Option (Nat × Nat)) × List Transaction
  | [], ls => ([], [], ls)
  | s :: rest, ls =>
    match selectBy (fun _ => true) (better5 score s) ls with
    | none =>
      let r := runTier5 cfg score rest ls
      (r.1, (s, none) :: r.2.1, r.2.2)
    | some (l, rl) =>
      if cfg.threshold < clampScore (score s l) then
        let r := runTier5 cfg score rest rl
        ({ tier := 5, confidence := clampScore (score s l), rule := "ai-suggested",
           stmts := [s], ledgs := [l] } :: r.1, r.2.1, r.2.2)
      else
        let r := runTier5 cfg score rest ls
        (r.1, (s, some (clampScore (score s l), l.rowId)) :: r.2.1, r.2.2)

/-- Conservation for Tier 5: group members plus leftovers are a permutation
of the inputs, on each side. -/
theorem runTier5_perm (cfg : Config) (score : Transaction → Transaction → Nat) :
    ∀ ss ls,
      (stmtsOf (runTier5 cfg score ss ls).1 ++
        ((runTier5 cfg score ss ls).2.1.map Prod.fst)).Perm ss ∧
      (ledgsOf (runTier5 cfg score ss ls).1 ++ (runTier5 cfg score ss ls).2.2).Perm ls := by
  intro ss
  induction ss with
  | nil => intro ls; simp [runTier5]
  | cons s rest ih =>
    intro ls
    cases hsel : selectBy (fun _ => true) (better5 score s) ls with
    | none =>
      obtain ⟨ih1, ih2⟩ := ih ls
      constructor
      · simpa [runTier5, hsel] using (List.perm_middle).trans (List.Perm.cons s ih1)
      · simpa [runTier5, hsel] using ih2
    | some val =>
      obtain ⟨l, rl⟩ := val
      by_cases hacc : cfg.threshold < clampScore (score s l)
      · obtain ⟨ih1, ih2⟩ := ih rl
        have hperm : (l :: rl).Perm ls := selectBy_perm hsel
        constructor
        · simpa [runTier5, hsel, hacc] using List.Perm.cons s ih1
        · simp only [runTier5, hsel, if_pos hacc, ledgsOf_cons, List.append_assoc]
          simp only [List.singleton_append]
          exact (List.Perm.cons l ih2).trans hperm
      · obtain ⟨ih1, ih2⟩ := ih ls
        constructor
        · simpa [runTier5, hsel, hacc] using (List.perm_middle).trans (List.Perm.cons s ih1)
        · simpa [runTier5, hsel, hacc] using ih2

/-- Every group accepted by Tier 5 is tagged tier 5 and its confidence (the
clamped returned score) strictly exceeds the acceptance threshold. -/
theorem runTier5_gate (cfg : Config) (score : Transaction → Transaction → Nat) :
    ∀ ss ls, ∀ g ∈ (runTier5 cfg score ss ls).1,
      g.tier = 5 ∧ cfg.threshold < g.confidence := by
  intro ss
  induction ss with
  | nil => intro ls g hg; simp [runTier5] at hg
  | cons s rest ih =>
    intro ls g hg
    cases hsel : selectBy (fun _ => true) (better5 score s) ls with
    | none =>
      simp only [runTier5, hsel] at hg
      exact ih ls g hg
    | some val =>
      obtain ⟨l, rl⟩ := val
      by_cases hacc : cfg.threshold < clampScore (score s l)
      · simp only [runTier5, hsel, if_pos hacc] at hg
        rcases List.mem_cons.mp hg with hgh | hgt
        · subst hgh; exact ⟨rfl, hacc⟩
        · exact ih rl g hgt
      · simp only [runTier5, hsel, if_neg hacc] at hg
        exact ih ls g hg

/-- Modelled from the spec: the Suspense Router's reason classification
(§4.3): the most specific applicable reason code, checked in order
duplicate-candidate, ambiguous-amount, below-confidence-threshold,
no-counterpart. -/
def classifyReason (dup amb suggested : Bool) : Reason :=
  if dup then Reason.duplicateCandidate
  else if amb then Reason.ambiguousAmount
  else if suggested then Reason.belowConfidenceThreshold
  else Reason.noCounterpart

/-- Modelled from the spec: the Suspense Router contract (§4.3):
`route(transaction, reasonCode) -> SuspenseEntry`, open on creation. -/
def route (t : Transaction) (r : Reason) : SuspenseEntry :=
  { txn := t, reason := r }

/-- Modelled from the spec: suspense entries for a finished run: leftover
statement lines in load order with their Tier-5 rejection information, then
leftover ledger lines in load order (a ledger line named by a rejected
under-threshold suggestion is itself below-confidence-threshold).  The
deterministic tie-break means the duplicate-candidate and ambiguous-amount
conditions never fire, so those flags are passed as false. -/
def suspenseOfRun (sugg : List (Transaction × Option (Nat × Nat)))
    (leftLedgers : List Transaction) : List SuspenseEntry :=
  sugg.map (fun p => route p.1 (classifyReason false false p.2.isSome)) ++
    leftLedgers.map (fun l => route l (classifyReason false false
      (sugg.any (fun p =>
        match p.2 with
        | some q => decide (q.2 = l.rowId)
        | none => false))))

/-- Modelled from the spec: the Reconciliation Number Allocator (§4.4):
reconciliation numbers are the prefix `R` followed by the sequence value
zero-padded to six digits. -/
def fmtRecon (n : Nat) : String :=
  "R" ++ String.mk (List.replicate (6 - (toString n).length) '0') ++ toString n

/-- Modelled from the spec: the allocator (§4.4) walks the accepted groups
in acceptance order, assigning strictly increasing sequence numbers from a
counter that only ever increments. -/
def allocateFrom : Nat → List MatchGroup → List MatchGroup
  | _, [] => []
  | n, g :: gs =>
    { g with reconNum := n, reconStr := fmtRecon n } :: allocateFrom (n + 1) gs

theorem allocateFrom_stmtsOf (n : Nat) (gs : List MatchGroup) :
    stmtsOf (allocateFrom n gs) = stmtsOf gs := by
  induction gs generalizing n with
  | nil => rfl
  | cons g gs ih => simp [allocateFrom, ih]

theorem allocateFrom_ledgsOf (n : Nat) (gs : List MatchGroup) :
    ledgsOf (allocateFrom n gs) = ledgsOf gs := by
  induction gs generalizing n with
  | nil => rfl
  | cons g gs ih => simp [allocateFrom, ih]

theorem allocateFrom_nums (n : Nat) (gs : List MatchGroup) :
    (allocateFrom n gs).map (fun g => g.reconNum) = List.range' n gs.length := by
  induction gs generalizing n with
  | nil => rfl
  | cons g gs ih => simp [allocateFrom, ih, List.range']

theorem allocateFrom_fmt (n : Nat) (gs : List MatchGroup) :
    ∀ g ∈ allocateFrom n gs, g.reconStr = fmtRecon g.reconNum := by
  induction gs generalizing n with
  | nil => intro g hg; simp [allocateFrom] at hg
  | cons g0 gs ih =>
    intro g hg
    simp only [allocateFrom, List.mem_cons] at hg
    rcases hg with hgh | hgt
    · subst hgh; rfl
    · exact ih (n + 1) g hgt

theorem allocateFrom_shape (n : Nat) (gs : List MatchGroup) :
    ∀ g ∈ allocateFrom n gs, ∃ g0 ∈ gs,
      g.stmts = g0.stmts ∧ g.ledgs = g0.ledgs ∧ g.tier = g0.tier ∧
        g.confidence = g0.confidence := by
  induction gs generalizing n with
  | nil => intro g hg; simp [allocateFrom] at hg
  | cons g0 gs ih =>
    intro g hg
    simp only [allocateFrom, List.mem_cons] at hg
    rcases hg with hgh | hgt
    · subst hgh; exact ⟨g0, List.mem_cons_self _ _, rfl, rfl, rfl, rfl⟩
    · obtain ⟨g1, hg1, he⟩ := ih (n + 1) g hgt
      exact ⟨g1, List.mem_cons_of_mem _ hg1, he⟩

theorem allocateFrom_tiers (n : Nat) (gs : List MatchGroup) :
    (allocateFrom n gs).map (fun g => g.tier) = gs.map (fun g => g.tier) := by
  induction gs generalizing n with
  | nil => rfl
  | cons g gs ih => simp [allocateFrom, ih]

/-- Modelled from the spec: the top-level aggregate of a run (§3): the
input transactions, the ordered accepted MatchGroups, and the
SuspenseEntries. -/
structure ReconciliationRun where
  stmts : List Transaction
  ledgs : List Transaction
  groups : List MatchGroup
  suspense : List SuspenseEntry
deriving DecidableEq

/-- Modelled from the spec: the five-tier reconciliation engine (§2, §4.2,
§5): Tiers 1–5 run strictly in order, each on the unmatched residue of the
previous tier; leftovers are routed to suspense; accepted groups receive
reconciliation numbers in acceptance order (tier order, then within-tier
processing order), starting at 1. -/
def runEngine (cfg : Config) (score : Transaction → Transaction → Nat)
    (stmts ledgs : List Transaction) : ReconciliationRun :=
  let r1 := runPairTier (pairStep 1 100 "exact-reference" (elig1 cfg)) stmts ledgs
  let r2 := runPairTier (pairStep 2 90 "amount-date-window" (elig2 cfg)) r1.2.1 r1.2.2
  let r3 := runPairTier (pairStep 3 70 "fuzzy-reference" (elig3 cfg)) r2.2.1 r2.2.2
  let r4 := runTier4 cfg r3.2.1 r3.2.2
  let r5 := runTier5 cfg score r4.2.1 r4.2.2
  { stmts := stmts
    ledgs := ledgs
    groups := allocateFrom 1 (r1.1 ++ r2.1 ++ r3.1 ++ r4.1 ++ r5.1)
    suspense := suspenseOfRun r5.2.1 r5.2.2 }

/-- All member transactions of a match group, statement side first. -/
def groupMembers (g : MatchGroup) : List Transaction :=
  g.stmts ++ g.ledgs

/-- Modelled from the spec: engine error kinds (§7) relevant to the Report
Builder: the post-run integrity violation. -/
inductive EngineError where
  | integrityError
deriving DecidableEq

/-- Modelled from the spec: the final reconciliation report (§3, §4.5). -/
structure ReconciliationReport where
  groups : List MatchGroup
  suspense : List SuspenseEntry
  totalStmt : Int
  totalLedger : Int
  matchedAmount : Int
  unmatchedAmount : Int
deriving DecidableEq

/-- Modelled from the spec: the Report Builder (§4.5): a pure aggregation
of groups, suspense entries and summary totals, whose only failure mode is
the defensive invariant check raising `IntegrityError` when matched plus
unmatched amounts do not reconcile with the input totals. -/
def buildReport (run : ReconciliationRun) : Except EngineError ReconciliationReport :=
  let matched := sumAmounts (run.groups.flatMap groupMembers)
  let unmatched := sumAmounts (run.suspense.map (fun e => e.txn))
  let totalS := sumAmounts run.stmts
  let totalL := sumAmounts run.ledgs
  if matched + unmatched = totalS + totalL then
    Except.ok
      { groups := run.groups, suspense := run.suspense, totalStmt := totalS,
        totalLedger := totalL, matchedAmount := matched, unmatchedAmount := unmatched }
  else Except.error EngineError.integrityError

theorem pairStep_hstep (t c : Nat) (rule : String)
    (elig : Transaction → Transaction → Bool) :
    ∀ s ls g rest, pairStep t c rule elig s ls = some (g, rest) →
      g.stmts = [s] ∧ (g.ledgs ++ rest).Perm ls :=
  fun _ _ _ _ h => ⟨(pairStep_spec h).1, (pairStep_spec h).2.1⟩

theorem runTier4_perm (cfg : Config) (ss ls : List Transaction) :
    (stmtsOf (runTier4 cfg ss ls).1 ++ (runTier4 cfg ss ls).2.1).Perm ss ∧
    (ledgsOf (runTier4 cfg ss ls).1 ++ (runTier4 cfg ss ls).2.2).Perm ls :=
  runTier4Aux_perm cfg ss.length ss ls (Nat.le_refl _)

theorem perm_middle_swap (B C D : List Transaction) :
    (B ++ (C ++ D)).Perm (C ++ (B ++ D)) := by
  rw [← List.append_assoc, ← List.append_assoc]
  exact List.perm_append_comm.append_right D

theorem perm_append_swap (A B C D : List Transaction) :
    ((A ++ B) ++ (C ++ D)).Perm ((A ++ C) ++ (B ++ D)) := by
  simp only [List.append_assoc]
  exact List.Perm.append_left A (perm_middle_swap B C D)

/-- Flattening the members of a group list is, up to permutation, the
statement members followed by the ledger members. -/
theorem members_perm (gs : List MatchGroup) :
    (gs.flatMap groupMembers).Perm (stmtsOf gs ++ ledgsOf gs) := by
  induction gs with
  | nil => simp
  | cons g gs ih =>
    simp only [List.flatMap_cons, stmtsOf_cons, ledgsOf_cons, groupMembers,
      List.append_assoc]
    refine List.Perm.append_left g.stmts ?_
    exact (List.Perm.append_left g.ledgs ih).trans (perm_middle_swap _ _ _)

theorem suspenseOfRun_txns (sugg : List (Transaction × Option (Nat × Nat)))
    (left : List Transaction) :
    (suspenseOfRun sugg left).map (fun e => e.txn) =
      sugg.map Prod.fst ++ left := by
  simp only [suspenseOfRun, route, List.map_append, List.map_map]
  congr 1
  conv_rhs => rw [← List.map_id left]
  exact List.map_congr_left fun l _ => rfl

/-- Transaction-level conservation for a full engine run: the members of
the accepted match groups together with the suspended transactions are a
permutation of the input transactions. -/
theorem engine_conservation (cfg : Config) (score : Transaction → Transaction → Nat)
    (ss ls : List Transaction) :
    (((runEngine cfg score ss ls).groups.flatMap groupMembers) ++
      (runEngine cfg score ss ls).suspense.map (fun e => e.txn)).Perm (ss ++ ls) := by
  simp only [runEngine]
  set r1 := runPairTier (pairStep 1 100 "exact-reference" (elig1 cfg)) ss ls with hr1
  set r2 := runPairTier (pairStep 2 90 "amount-date-window" (elig2 cfg)) r1.2.1 r1.2.2 with hr2
  set r3 := runPairTier (pairStep 3 70 "fuzzy-reference" (elig3 cfg)) r2.2.1 r2.2.2 with hr3
  set r4 := runTier4 cfg r3.2.1 r3.2.2 with hr4
  set r5 := runTier5 cfg score r4.2.1 r4.2.2 with hr5
  have h1 := runPairTier_perm (pairStep_hstep 1 100 "exact-reference" (elig1 cfg)) ss ls
  have h2 := runPairTier_perm (pairStep_hstep 2 90 "amount-date-window" (elig2 cfg)) r1.2.1 r1.2.2
  have h3 := runPairTier_perm (pairStep_hstep 3 70 "fuzzy-reference" (elig3 cfg)) r2.2.1 r2.2.2
  have h4 := runTier4_perm cfg r3.2.1 r3.2.2
  have h5 := runTier5_perm cfg score r4.2.1 r4.2.2
  rw [← hr1] at h1
  rw [← hr2] at h2
  rw [← hr3] at h3
  rw [← hr4] at h4
  rw [← hr5] at h5
  have p4 : (stmtsOf r4.1 ++ (stmtsOf r5.1 ++ r5.2.1.map Prod.fst)).Perm r3.2.1 :=
    (List.Perm.append_left _ h5.1).trans h4.1
  have p3 : (stmtsOf r3.1 ++ (stmtsOf r4.1 ++ (stmtsOf r5.1 ++ r5.2.1.map Prod.fst))).Perm r2.2.1 :=
    (List.Perm.append_left _ p4).trans h3.1
  have p2 : (stmtsOf r2.1 ++ (stmtsOf r3.1 ++ (stmtsOf r4.1 ++ (stmtsOf r5.1 ++ r5.2.1.map Prod.fst)))).Perm r1.2.1 :=
    (List.Perm.append_left _ p3).trans h2.1
  have hstmt : (stmtsOf (r1.1 ++ r2.1 ++ r3.1 ++ r4.1 ++ r5.1) ++ r5.2.1.map Prod.fst).Perm ss := by
    simp only [stmtsOf_append, List.append_assoc]
    exact (List.Perm.append_left _ p2).trans h1.1
  have q4 : (ledgsOf r4.1 ++ (ledgsOf r5.1 ++ r5.2.2)).Perm r3.2.2 :=
    (List.Perm.append_left _ h5.2).trans h4.2
  have q3 : (ledgsOf r3.1 ++ (ledgsOf r4.1 ++ (ledgsOf r5.1 ++ r5.2.2))).Perm r2.2.2 :=
    (List.Perm.append_left _ q4).trans h3.2
  have q2 : (ledgsOf r2.1 ++ (ledgsOf r3.1 ++ (ledgsOf r4.1 ++ (ledgsOf r5.1 ++ r5.2.2)))).Perm r1.2.2 :=
    (List.Perm.append_left _ q3).trans h2.2
  have hledg : (ledgsOf (r1.1 ++ r2.1 ++ r3.1 ++ r4.1 ++ r5.1) ++ r5.2.2).Perm ls := by
    simp only [ledgsOf_append, List.append_assoc]
    exact (List.Perm.append_left _ q2).trans h1.2
  rw [suspenseOfRun_txns]
  have hmem : ((allocateFrom 1 (r1.1 ++ r2.1 ++ r3.1 ++ r4.1 ++ r5.1)).flatMap groupMembers).Perm
      (stmtsOf (r1.1 ++ r2.1 ++ r3.1 ++ r4.1 ++ r5.1) ++
        ledgsOf (r1.1 ++ r2.1 ++ r3.1 ++ r4.1 ++ r5.1)) := by
    have := members_perm (allocateFrom 1 (r1.1 ++ r2.1 ++ r3.1 ++ r4.1 ++ r5.1))
    rwa [allocateFrom_stmtsOf, allocateFrom_ledgsOf] at this
  refine ((hmem.append_right _).trans ?_)
  exact (perm_append_swap _ _ _ _).trans (List.Perm.append hstmt hledg)

/-- Modelled from the spec: whether a raw row is a debit or a credit. -/
inductive EntryKind where
  | debit
  | credit
deriving DecidableEq

/-- Modelled from the spec: normalization failures (§4.1, §7), each
surfaced to the caller with the offending row identifier. -/
inductive MalformedRecordError where
  | missingAmount (rowId : Nat)
  | unparsableDate (rowId : Nat)
  | invalidAccountCode (rowId : Nat)
deriving DecidableEq

/-- Modelled from the spec: a raw bank or ledger record before
normalization (§4.1, §6).  The amount magnitude is absent when the row has
no amount; the date is absent when the raw date string does not parse. -/
structure RawRecord where
  rowId : Nat
  amountField : Option Nat
  kind : EntryKind
  dateField : Option Nat
  accountCode : String
  reference : String
deriving DecidableEq

/-- Modelled from the spec: the Normalizer (§4.1): a pure function from a
raw record of either source to a Transaction or a `MalformedRecordError`
(missing amount, unparsable date, invalid account code per the external PCN
predicate).  Sign convention: debits negative, credits positive, applied
identically regardless of source. -/
def normalize (pcn : String → Bool) (src : Source) (r : RawRecord) :
    Except MalformedRecordError Transaction :=
  match r.amountField with
  | none => Except.error (MalformedRecordError.missingAmount r.rowId)
  | some a =>
    match r.dateField with
    | none => Except.error (MalformedRecordError.unparsableDate r.rowId)
    | some d =>
      if pcn r.accountCode then
        Except.ok
          { source := src
            amount :=
              match r.kind with
              | EntryKind.debit => -(a : Int)
              | EntryKind.credit => (a : Int)
            valueDate := d
            accountCode := r.accountCode
            reference := r.reference
            rowId := r.rowId }
      else Except.error (MalformedRecordError.invalidAccountCode r.rowId)

/-- Modelled from the spec: normalizing a whole input set (§4.1, §7): each
row is normalized independently; a malformed row contributes only its error
and aborts nothing else. -/
def normalizeAll (pcn : String → Bool) (src : Source) :
    List RawRecord → List Transaction × List MalformedRecordError
  | [] => ([], [])
  | r :: rest =>
    let acc := normalizeAll pcn src rest
    match normalize pcn src r with
    | Except.ok t => (t :: acc.1, acc.2)
    | Except.error e => (acc.1, e :: acc.2)

/-! ## Service layer, embedded from `src/approchement-backend-main/main.py` -/

/-- Python truthiness of an optional string: `None` and the empty string
are falsy (`os.getenv` returns `None` when the variable is unset). -/
def pyTruthy (s : Option String) : Bool :=
  match s with
  | none => false
  | some v => decide (v ≠ "")

/-- The services block of the health-check response. -/
structure HealthServices where
  upload : String
  reconciliation : String
  ai_assistant : String
  database : String
deriving DecidableEq

/-- The health-check response (the fields the claims are about). -/
structure HealthResponse where
  status : String
  services : HealthServices
deriving DecidableEq

/-- Embedded from `main.py` lines 116–136 (`health_check`): upload,
reconciliation and ai_assistant are hard-coded "available"; database is
"connected" exactly when `DATABASE_URL` is truthy. -/
def health_check (databaseUrl : Option String) : HealthResponse :=
  { status := "healthy"
    services :=
      { upload := "available"
        reconciliation := "available"
        ai_assistant := "available"
        database := if pyTruthy databaseUrl then "connected" else "disconnected" } }

/-- The three origins whitelisted by the debug CORS middleware in
`main.py` lines 61–65. -/
def allowedDebugOrigins : List String :=
  ["http://localhost:5173", "http://localhost:3000",
    "https://rapproch-frontend.onrender.com"]

/-- Set (or overwrite) a response header, like assignment into
`response.headers`. -/
def setHeader (hs : List (String × String)) (k v : String) : List (String × String) :=
  match hs with
  | [] => [(k, v)]
  | (k0, v0) :: rest => if k0 = k then (k, v) :: rest else (k0, v0) :: setHeader rest k v

/-- Read a response header. -/
def getHeader (hs : List (String × String)) (k : String) : Option String :=
  match hs with
  | [] => none
  | (k0, v0) :: rest => if k0 = k then some v0 else getHeader rest k

/-- Embedded from `main.py` lines 55–75 (`add_cors_headers`): given the
request's Origin header and the downstream response headers, mirror the
origin into Access-Control-Allow-Origin (plus credentials and expose
headers) when `origin` is truthy and in the whitelist, then stamp the
debug headers X-API-Server, X-API-Version and X-Timestamp on every
response. -/
def add_cors_headers (origin : Option String) (now : String)
    (hs : List (String × String)) : List (String × String) :=
  let hs1 :=
    match origin with
    | none => hs
    | some o =>
      if o ≠ "" ∧ o ∈ allowedDebugOrigins then
        setHeader
          (setHeader (setHeader hs "Access-Control-Allow-Origin" o)
            "Access-Control-Allow-Credentials" "true")
          "Access-Control-Expose-Headers" "*"
      else hs
  setHeader (setHeader (setHeader hs1 "X-API-Server" "rapproch-backend")
    "X-API-Version" "1.0.0") "X-Timestamp" now

theorem getHeader_setHeader_same (hs : List (String × String)) (k v : String) :
    getHeader (setHeader hs k v) k = some v := by
  induction hs with
  | nil => simp [setHeader, getHeader]
  | cons h rest ih =>
    obtain ⟨k0, v0⟩ := h
    by_cases hk : k0 = k
    · simp [setHeader, getHeader, hk]
    · simp [setHeader, getHeader, hk, ih]

theorem getHeader_setHeader_other (hs : List (String × String)) (k v k2 : String)
    (h : k2 ≠ k) : getHeader (setHeader hs k v) k2 = getHeader hs k2 := by
  have hne : k ≠ k2 := fun he => h he.symm
  induction hs with
  | nil => simp [setHeader, getHeader, hne]
  | cons h0 rest ih =>
    obtain ⟨k0, v0⟩ := h0
    by_cases hk : k0 = k
    · subst hk
      simp [setHeader, getHeader, hne]
    · simp only [setHeader, if_neg hk, getHeader]
      by_cases hk2 : k0 = k2
      · simp [hk2]
      · simp [hk2, ih]

/-! ## Claim theorems -/

/-- The input-row identifiers of a list of transactions, in order. -/
def idsOf (l : List Transaction) : List Nat :=
  l.map (fun t => t.rowId)

@[simp] theorem runEngine_stmts (cfg : Config) (score : Transaction → Transaction → Nat)
    (ss ls : List Transaction) : (runEngine cfg score ss ls).stmts = ss := rfl

@[simp] theorem runEngine_ledgs (cfg : Config) (score : Transaction → Transaction → Nat)
    (ss ls : List Transaction) : (runEngine cfg score ss ls).ledgs = ls := rfl

theorem map_flatMap_members (gs : List MatchGroup) (f : Transaction → Nat) :
    (gs.flatMap groupMembers).map f = gs.flatMap (fun g => (groupMembers g).map f) := by
  induction gs with
  | nil => rfl
  | cons g gs ih => simp [ih]

/-- C1: Conservation — for every reconciliation run, the multiset of input
transaction identifiers equals the union of identifiers across all
MatchGroups and SuspenseEntries: no transaction is dropped and none appears
twice. -/
theorem conservation_of_identifiers (cfg : Config)
    (score : Transaction → Transaction → Nat) (ss ls : List Transaction) :
    ((runEngine cfg score ss ls).groups.flatMap (fun g => idsOf (groupMembers g)) ++
      idsOf ((runEngine cfg score ss ls).suspense.map (fun e => e.txn))).Perm
      (idsOf (ss ++ ls)) := by
  have h := (engine_conservation cfg score ss ls).map (fun t => t.rowId)
  rw [List.map_append, map_flatMap_members] at h
  simpa [idsOf] using h

/-- C2: Amount reconciliation — for every run the matched-amount total plus
the unmatched-amount total equals the sum of all input amounts, so the
Report Builder succeeds on every engine run; and `buildReport` is a pure
aggregation whose only failure mode is `IntegrityError`, raised exactly
when that equation fails. -/
theorem amount_reconciliation (cfg : Config)
    (score : Transaction → Transaction → Nat) (ss ls : List Transaction) :
    (∃ rep, buildReport (runEngine cfg score ss ls) = Except.ok rep) ∧
      ∀ run : ReconciliationRun,
        (buildReport run = Except.error EngineError.integrityError ↔
          sumAmounts (run.groups.flatMap groupMembers) +
              sumAmounts (run.suspense.map (fun e => e.txn)) ≠
            sumAmounts run.stmts + sumAmounts run.ledgs) := by
  constructor
  · have h := engine_conservation cfg score ss ls
    have hsum := sumAmounts_perm h
    rw [sumAmounts_append, sumAmounts_append] at hsum
    exact ⟨_, by
      simp only [buildReport, runEngine_stmts, runEngine_ledgs]
      rw [if_pos hsum]⟩
  · intro run
    simp only [buildReport]
    by_cases hc : sumAmounts (run.groups.flatMap groupMembers) +
        sumAmounts (run.suspense.map fun e => e.txn) =
        sumAmounts run.stmts + sumAmounts run.ledgs
    · rw [if_pos hc]; simp [hc]
    · rw [if_neg hc]; simp [hc]

theorem runPairTier_tags (t c : Nat) (rule : String)
    (elig : Transaction → Transaction → Bool) :
    ∀ ss ls, ∀ g ∈ (runPairTier (pairStep t c rule elig) ss ls).1,
      g.tier = t ∧ g.confidence = c := by
  intro ss
  induction ss with
  | nil => intro ls g hg; simp [runPairTier] at hg
  | cons s rest ih =>
    intro ls g hg
    cases hs : pairStep t c rule elig s ls with
    | none =>
      simp only [runPairTier, hs] at hg
      exact ih ls g hg
    | some val =>
      obtain ⟨g0, ls2⟩ := val
      simp only [runPairTier, hs] at hg
      rcases List.mem_cons.mp hg with hgh | hgt
      · subst hgh
        obtain ⟨-, -, ht, hc, -⟩ := pairStep_spec hs
        exact ⟨ht, hc⟩
      · exact ih ls2 g hgt

theorem runTier4Aux_tags (cfg : Config) :
    ∀ n ss ls, ∀ g ∈ (runTier4Aux cfg n ss ls).1, g.tier = 4 := by
  intro n
  induction n with
  | zero => intro ss ls g hg; simp [runTier4Aux] at hg
  | succ n ih =>
    intro ss ls g hg
    cases ss with
    | nil => simp [runTier4Aux] at hg
    | cons s rest =>
      cases hs : step4 cfg s rest ls with
      | none =>
        simp only [runTier4Aux, hs] at hg
        exact ih rest ls g hg
      | some val =>
        obtain ⟨g0, rs, rl⟩ := val
        simp only [runTier4Aux, hs] at hg
        rcases List.mem_cons.mp hg with hgh | hgt
        · subst hgh
          exact (step4_spec hs).2.2
        · exact ih rs rl g hgt

theorem range'_pairwise_lt : ∀ (n s : Nat), List.Pairwise (· < ·) (List.range' s n) := by
  intro n
  induction n with
  | zero => intro s; simp
  | succ n ih =>
    intro s
    rw [List.range'_succ]
    refine List.Pairwise.cons ?_ (ih (s + 1))
    intro x hx
    have := List.mem_range'_1.mp hx
    omega

theorem pairwise_le_const (t : Nat) :
    ∀ l : List Nat, (∀ x ∈ l, x = t) → List.Pairwise (· ≤ ·) l := by
  intro l
  induction l with
  | nil => intro _; simp
  | cons a l ih =>
    intro h
    refine List.Pairwise.cons ?_ (ih fun x hx => h x (List.mem_cons_of_mem _ hx))
    intro b hb
    rw [h a (List.mem_cons_self _ _), h b (List.mem_cons_of_mem _ hb)]

theorem pairwise_le_append {l1 l2 : List Nat}
    (h1 : List.Pairwise (· ≤ ·) l1) (h2 : List.Pairwise (· ≤ ·) l2)
    (h12 : ∀ x ∈ l1, ∀ y ∈ l2, x ≤ y) :
    List.Pairwise (· ≤ ·) (l1 ++ l2) :=
  List.pairwise_append.mpr ⟨h1, h2, h12⟩

/-- C3: Determinism — the engine is a pure function: identical input
(including identical AI-scorer responses) gives identical MatchGroups,
numbers and suspense classification; and within a tier, the selected
ledger candidate is optimal for the spec's deterministic tie-break order:
closest value date first, then lowest ledger row identifier. -/
theorem engine_determinism (cfg : Config)
    (score1 score2 : Transaction → Transaction → Nat)
    (ss1 ss2 ls1 ls2 : List Transaction) :
    (score1 = score2 → ss1 = ss2 → ls1 = ls2 →
      runEngine cfg score1 ss1 ls1 = runEngine cfg score2 ss2 ls2) ∧
    (∀ t c rule elig s ls g rest,
      pairStep t c rule elig s ls = some (g, rest) →
      ∃ l, g.ledgs = [l] ∧ elig s l = true ∧
        ∀ l2 ∈ ls, elig s l2 = true →
          lexLe (tieKey s l) (tieKey s l2) = true) := by
  constructor
  · intro h1 h2 h3
    subst h1; subst h2; subst h3
    rfl
  · intro t c rule elig s ls g rest h
    unfold pairStep at h
    cases hsel : selectBy (elig s) (tieBetter s) ls with
    | none => rw [hsel] at h; exact absurd h (by simp)
    | some val =>
      obtain ⟨l, rest0⟩ := val
      rw [hsel] at h
      simp only [Option.some.injEq, Prod.mk.injEq] at h
      obtain ⟨hg, -⟩ := h
      have hledgs : g.ledgs = [l] := by rw [← hg]
      refine ⟨l, hledgs, selectBy_prop hsel, ?_⟩
      intro l2 hl2 he2
      have := selectBy_best (fun a b => lexLe_total (tieKey s a) (tieKey s b))
        (fun a b c2 => lexLe_trans) hsel l2 hl2 he2
      exact this

/-- C4: Monotonic numbering — within one run, reconciliation numbers are
strictly increasing along the acceptance order (tier order, then
within-tier processing order, the order of the groups list), formatted as
the prefix plus a zero-padded sequence; strict increase of the counter
means a number is never reused. -/
theorem monotonic_numbering (cfg : Config)
    (score : Transaction → Transaction → Nat) (ss ls : List Transaction) :
    List.Pairwise (· < ·)
        ((runEngine cfg score ss ls).groups.map (fun g => g.reconNum)) ∧
      (∀ g ∈ (runEngine cfg score ss ls).groups,
        g.reconStr = fmtRecon g.reconNum) ∧
      List.Pairwise (· ≤ ·)
        ((runEngine cfg score ss ls).groups.map (fun g => g.tier)) := by
  simp only [runEngine]
  set r1 := runPairTier (pairStep 1 100 "exact-reference" (elig1 cfg)) ss ls with hr1
  set r2 := runPairTier (pairStep 2 90 "amount-date-window" (elig2 cfg)) r1.2.1 r1.2.2 with hr2
  set r3 := runPairTier (pairStep 3 70 "fuzzy-reference" (elig3 cfg)) r2.2.1 r2.2.2 with hr3
  set r4 := runTier4 cfg r3.2.1 r3.2.2 with hr4
  set r5 := runTier5 cfg score r4.2.1 r4.2.2 with hr5
  refine ⟨?_, ?_, ?_⟩
  · rw [allocateFrom_nums]
    exact range'_pairwise_lt _ _
  · exact allocateFrom_fmt 1 _
  · rw [allocateFrom_tiers]
    have t1 : ∀ x ∈ r1.1.map (fun g => g.tier), x = 1 := by
      intro x hx
      obtain ⟨g, hg, he⟩ := List.mem_map.mp hx
      rw [← he]
      exact (runPairTier_tags 1 100 "exact-reference" (elig1 cfg) ss ls g (by rw [hr1] at hg; exact hg)).1
    have t2 : ∀ x ∈ r2.1.map (fun g => g.tier), x = 2 := by
      intro x hx
      obtain ⟨g, hg, he⟩ := List.mem_map.mp hx
      rw [← he]
      exact (runPairTier_tags 2 90 "amount-date-window" (elig2 cfg) r1.2.1 r1.2.2 g (by rw [hr2] at hg; exact hg)).1
    have t3 : ∀ x ∈ r3.1.map (fun g => g.tier), x = 3 := by
      intro x hx
      obtain ⟨g, hg, he⟩ := List.mem_map.mp hx
      rw [← he]
      exact (runPairTier_tags 3 70 "fuzzy-reference" (elig3 cfg) r2.2.1 r2.2.2 g (by rw [hr3] at hg; exact hg)).1
    have t4 : ∀ x ∈ r4.1.map (fun g => g.tier), x = 4 := by
      intro x hx
      obtain ⟨g, hg, he⟩ := List.mem_map.mp hx
      rw [← he]
      exact runTier4Aux_tags cfg r3.2.1.length r3.2.1 r3.2.2 g (by rw [hr4] at hg; exact hg)
    have t5 : ∀ x ∈ r5.1.map (fun g => g.tier), x = 5 := by
      intro x hx
      obtain ⟨g, hg, he⟩ := List.mem_map.mp hx
      rw [← he]
      exact (runTier5_gate cfg score r4.2.1 r4.2.2 g (by rw [hr5] at hg; exact hg)).1
    simp only [List.map_append]
    have P45 : List.Pairwise (· ≤ ·)
        (r4.1.map (fun g => g.tier) ++ r5.1.map (fun g => g.tier)) := by
      refine pairwise_le_append (pairwise_le_const 4 _ t4) (pairwise_le_const 5 _ t5) ?_
      intro x hx y hy
      rw [t4 x hx, t5 y hy]
      omega
    have P345 : List.Pairwise (· ≤ ·)
        (r3.1.map (fun g => g.tier) ++
          (r4.1.map (fun g => g.tier) ++ r5.1.map (fun g => g.tier))) := by
      refine pairwise_le_append (pairwise_le_const 3 _ t3) P45 ?_
      intro x hx y hy
      rw [t3 x hx]
      rcases List.mem_append.mp hy with hy4 | hy5
      · rw [t4 y hy4]; omega
      · rw [t5 y hy5]; omega
    have P2345 : List.Pairwise (· ≤ ·)
        (r2.1.map (fun g => g.tier) ++
          (r3.1.map (fun g => g.tier) ++
            (r4.1.map (fun g => g.tier) ++ r5.1.map (fun g => g.tier)))) := by
      refine pairwise_le_append (pairwise_le_const 2 _ t2) P345 ?_
      intro x hx y hy
      rw [t2 x hx]
      rcases List.mem_append.mp hy with hy3 | hy45
      · rw [t3 y hy3]; omega
      · rcases List.mem_append.mp hy45 with hy4 | hy5
        · rw [t4 y hy4]; omega
        · rw [t5 y hy5]; omega
    have P12345 : List.Pairwise (· ≤ ·)
        (r1.1.map (fun g => g.tier) ++
          (r2.1.map (fun g => g.tier) ++
            (r3.1.map (fun g => g.tier) ++
              (r4.1.map (fun g => g.tier) ++ r5.1.map (fun g => g.tier))))) := by
      refine pairwise_le_append (pairwise_le_const 1 _ t1) P2345 ?_
      intro x hx y hy
      rw [t1 x hx]
      rcases List.mem_append.mp hy with hy2 | hy345
      · rw [t2 y hy2]; omega
      · rcases List.mem_append.mp hy345 with hy3 | hy45
        · rw [t3 y hy3]; omega
        · rcases List.mem_append.mp hy45 with hy4 | hy5
          · rw [t4 y hy4]; omega
          · rw [t5 y hy5]; omega
    simpa [List.append_assoc] using P12345

theorem mem_stmtsOf {g : MatchGroup} {gs : List MatchGroup} {x : Transaction}
    (hg : g ∈ gs) (hx : x ∈ g.stmts) : x ∈ stmtsOf gs := by
  simp only [stmtsOf, List.mem_flatMap]
  exact ⟨g, hg, hx⟩

theorem mem_ledgsOf {g : MatchGroup} {gs : List MatchGroup} {x : Transaction}
    (hg : g ∈ gs) (hx : x ∈ g.ledgs) : x ∈ ledgsOf gs := by
  simp only [ledgsOf, List.mem_flatMap]
  exact ⟨g, hg, hx⟩

/-- C5: Tier precedence — tiers run strictly in order 1→5 on the residue of
the previous tier (definitionally, `runEngine` feeds each tier the
unmatched remainder of the one before), so a pair matchable by Tier 1 is
never instead resolved by Tiers 2–5: every statement–ledger pair inside a
group of tier ≥ 2 fails the Tier-1 rule. -/
theorem tier_precedence (cfg : Config) (score : Transaction → Transaction → Nat)
    (ss ls : List Transaction) :
    ∀ g ∈ (runEngine cfg score ss ls).groups, 2 ≤ g.tier →
      ∀ s ∈ g.stmts, ∀ l ∈ g.ledgs, elig1 cfg s l = false := by
  simp only [runEngine]
  set r1 := runPairTier (pairStep 1 100 "exact-reference" (elig1 cfg)) ss ls with hr1
  set r2 := runPairTier (pairStep 2 90 "amount-date-window" (elig2 cfg)) r1.2.1 r1.2.2 with hr2
  set r3 := runPairTier (pairStep 3 70 "fuzzy-reference" (elig3 cfg)) r2.2.1 r2.2.2 with hr3
  set r4 := runTier4 cfg r3.2.1 r3.2.2 with hr4
  set r5 := runTier5 cfg score r4.2.1 r4.2.2 with hr5
  intro g hg htier s hsm l hlm
  obtain ⟨g0, hg0, hst, hld, hti, -⟩ := allocateFrom_shape 1 _ g hg
  rw [hst] at hsm
  rw [hld] at hlm
  have hp2 := runPairTier_perm (pairStep_hstep 2 90 "amount-date-window" (elig2 cfg)) r1.2.1 r1.2.2
  have hp3 := runPairTier_perm (pairStep_hstep 3 70 "fuzzy-reference" (elig3 cfg)) r2.2.1 r2.2.2
  have hp4 := runTier4_perm cfg r3.2.1 r3.2.2
  have hp5 := runTier5_perm cfg score r4.2.1 r4.2.2
  rw [← hr2] at hp2
  rw [← hr3] at hp3
  rw [← hr4] at hp4
  rw [← hr5] at hp5
  have sIn2 : ∀ x, x ∈ r2.2.1 → x ∈ r1.2.1 := fun x hx =>
    hp2.1.mem_iff.mp (List.mem_append_right _ hx)
  have sIn3 : ∀ x, x ∈ r3.2.1 → x ∈ r1.2.1 := fun x hx =>
    sIn2 x (hp3.1.mem_iff.mp (List.mem_append_right _ hx))
  have sIn4 : ∀ x, x ∈ r4.2.1 → x ∈ r1.2.1 := fun x hx =>
    sIn3 x (hp4.1.mem_iff.mp (List.mem_append_right _ hx))
  have lIn2 : ∀ x, x ∈ r2.2.2 → x ∈ r1.2.2 := fun x hx =>
    hp2.2.mem_iff.mp (List.mem_append_right _ hx)
  have lIn3 : ∀ x, x ∈ r3.2.2 → x ∈ r1.2.2 := fun x hx =>
    lIn2 x (hp3.2.mem_iff.mp (List.mem_append_right _ hx))
  have lIn4 : ∀ x, x ∈ r4.2.2 → x ∈ r1.2.2 := fun x hx =>
    lIn3 x (hp4.2.mem_iff.mp (List.mem_append_right _ hx))
  simp only [List.mem_append] at hg0
  have hres := @runPairTier_residue 1 100 "exact-reference" (elig1 cfg) ss ls
  rw [← hr1] at hres
  rcases hg0 with (((h1 | h2) | h3) | h4) | h5
  · have := (runPairTier_tags 1 100 "exact-reference" (elig1 cfg) ss ls g0
      (by rw [hr1] at h1; exact h1)).1
    omega
  · have hs1 : s ∈ r1.2.1 := hp2.1.mem_iff.mp (List.mem_append_left _ (mem_stmtsOf h2 hsm))
    have hl1 : l ∈ r1.2.2 := hp2.2.mem_iff.mp (List.mem_append_left _ (mem_ledgsOf h2 hlm))
    exact hres s hs1 l hl1
  · have hs1 : s ∈ r1.2.1 := sIn2 s (hp3.1.mem_iff.mp (List.mem_append_left _ (mem_stmtsOf h3 hsm)))
    have hl1 : l ∈ r1.2.2 := lIn2 l (hp3.2.mem_iff.mp (List.mem_append_left _ (mem_ledgsOf h3 hlm)))
    exact hres s hs1 l hl1
  · have hs1 : s ∈ r1.2.1 := sIn3 s (hp4.1.mem_iff.mp (List.mem_append_left _ (mem_stmtsOf h4 hsm)))
    have hl1 : l ∈ r1.2.2 := lIn3 l (hp4.2.mem_iff.mp (List.mem_append_left _ (mem_ledgsOf h4 hlm)))
    exact hres s hs1 l hl1
  · have hs1 : s ∈ r1.2.1 := sIn4 s (hp5.1.mem_iff.mp (List.mem_append_left _ (mem_stmtsOf h5 hsm)))
    have hl1 : l ∈ r1.2.2 := lIn4 l (hp5.2.mem_iff.mp (List.mem_append_left _ (mem_ledgsOf h5 hlm)))
    exact hres s hs1 l hl1

/-- Scenario D statement line: no Tier 1–4 counterpart exists for it. -/
def stmtD : Transaction :=
  ⟨Source.statement, 700, 10, "403", "X1", 5⟩

/-- Scenario D ledger line: differs from `stmtD` in account code, amount,
normalized reference and value date. -/
def ledgD : Transaction :=
  ⟨Source.ledger, 981, 40, "404", "Y2", 6⟩

/-- An AI scorer answering 50 for every pair. -/
def scoreLow : Transaction → Transaction → Nat := fun _ _ => 50

/-- An AI scorer answering 95 for every pair. -/
def scoreHigh : Transaction → Transaction → Nat := fun _ _ => 95

/-- The group Tier 5 accepts for scenario D's pool under `scoreHigh`. -/
def gAccept : MatchGroup :=
  ⟨5, 95, "ai-suggested", [stmtD], [ledgD], 1, fmtRecon 1⟩

/-- C6: Tier-5 acceptance gate — a pairing suggested by the AI scorer is
accepted only if its score exceeds the acceptance threshold; and in
scenario D (score 50, threshold 80) the pair is not accepted: both
transactions land in suspense with reason below-confidence-threshold. -/
theorem tier5_acceptance_gate (cfg : Config)
    (score : Transaction → Transaction → Nat) (ss ls : List Transaction) :
    (∀ g ∈ (runEngine cfg score ss ls).groups, g.tier = 5 →
        cfg.threshold < g.confidence) ∧
      (runEngine {} scoreLow [stmtD] [ledgD]).groups = [] ∧
      (runEngine {} scoreLow [stmtD] [ledgD]).suspense.map (fun e => e.reason) =
        [Reason.belowConfidenceThreshold, Reason.belowConfidenceThreshold] := by
  refine ⟨?_, by decide, by decide⟩
  simp only [runEngine]
  set r1 := runPairTier (pairStep 1 100 "exact-reference" (elig1 cfg)) ss ls with hr1
  set r2 := runPairTier (pairStep 2 90 "amount-date-window" (elig2 cfg)) r1.2.1 r1.2.2 with hr2
  set r3 := runPairTier (pairStep 3 70 "fuzzy-reference" (elig3 cfg)) r2.2.1 r2.2.2 with hr3
  set r4 := runTier4 cfg r3.2.1 r3.2.2 with hr4
  set r5 := runTier5 cfg score r4.2.1 r4.2.2 with hr5
  intro g hg hg5
  obtain ⟨g0, hg0, -, -, hti, hco⟩ := allocateFrom_shape 1 _ g hg
  simp only [List.mem_append] at hg0
  rcases hg0 with (((h1 | h2) | h3) | h4) | h5
  · have := (runPairTier_tags 1 100 "exact-reference" (elig1 cfg) ss ls g0
      (by rw [hr1] at h1; exact h1)).1
    omega
  · have := (runPairTier_tags 2 90 "amount-date-window" (elig2 cfg) r1.2.1 r1.2.2 g0
      (by rw [hr2] at h2; exact h2)).1
    omega
  · have := (runPairTier_tags 3 70 "fuzzy-reference" (elig3 cfg) r2.2.1 r2.2.2 g0
      (by rw [hr3] at h3; exact h3)).1
    omega
  · have := runTier4Aux_tags cfg r3.2.1.length r3.2.1 r3.2.2 g0
      (by rw [hr4] at h4; exact h4)
    omega
  · have := runTier5_gate cfg score r4.2.1 r4.2.2 g0 (by rw [hr5] at h5; exact h5)
    rw [hco]
    exact this.2

/-- Witness for C6: under `scoreHigh` (95 over threshold 80) the engine does
accept a Tier-5 group for scenario D's pool, and the gate theorem applies
to it. -/
theorem tier5_acceptance_gate_witness :
    gAccept ∈ (runEngine {} scoreHigh [stmtD] [ledgD]).groups ∧
      ({} : Config).threshold < gAccept.confidence :=
  ⟨by decide,
    (tier5_acceptance_gate {} scoreHigh [stmtD] [ledgD]).1 gAccept (by decide) (by decide)⟩

/-- The row identifier a malformed-record error is surfaced with. -/
def errRowId : MalformedRecordError → Nat
  | MalformedRecordError.missingAmount r => r
  | MalformedRecordError.unparsableDate r => r
  | MalformedRecordError.invalidAccountCode r => r

/-- C7: Normalizer contract — normalization is a pure total function that
fails exactly on a missing amount, an unparsable date or an invalid
account code, surfacing the offending row identifier; the sign convention
(debits non-positive, credits non-negative) is applied identically for both
sources; and a malformed row contributes only its own error to
`normalizeAll`, never aborting the other rows. -/
theorem normalizer_contract (pcn : String → Bool) (src : Source) (r : RawRecord) :
    ((∃ e, normalize pcn src r = Except.error e) ↔
        (r.amountField = none ∨ r.dateField = none ∨ pcn r.accountCode = false)) ∧
      (∀ e, normalize pcn src r = Except.error e → errRowId e = r.rowId) ∧
      (∀ t, normalize pcn src r = Except.ok t →
        (r.kind = EntryKind.debit → t.amount ≤ 0) ∧
          (r.kind = EntryKind.credit → 0 ≤ t.amount)) ∧
      ((normalize pcn Source.statement r).map (fun t => t.amount) =
        (normalize pcn Source.ledger r).map (fun t => t.amount)) ∧
      (∀ rs e, normalize pcn src r = Except.error e →
        normalizeAll pcn src (r :: rs) =
          ((normalizeAll pcn src rs).1, e :: (normalizeAll pcn src rs).2)) ∧
      (∀ rs t, normalize pcn src r = Except.ok t →
        normalizeAll pcn src (r :: rs) =
          (t :: (normalizeAll pcn src rs).1, (normalizeAll pcn src rs).2)) := by
  refine ⟨?_, ?_, ?_, ?_, ?_, ?_⟩
  · cases hra : r.amountField with
    | none => simp [normalize, hra]
    | some a =>
      cases hrd : r.dateField with
      | none => simp [normalize, hra, hrd]
      | some d =>
        by_cases hp : pcn r.accountCode
        · simp [normalize, hra, hrd, hp]
        · simp [normalize, hra, hrd, hp]
  · intro e he
    cases hra : r.amountField with
    | none =>
      simp [normalize, hra] at he
      rw [← he]
      rfl
    | some a =>
      cases hrd : r.dateField with
      | none =>
        simp [normalize, hra, hrd] at he
        rw [← he]
        rfl
      | some d =>
        by_cases hp : pcn r.accountCode
        · simp [normalize, hra, hrd, hp] at he
        · simp [normalize, hra, hrd, hp] at he
          rw [← he]
          rfl
  · intro t ht
    cases hra : r.amountField with
    | none => simp [normalize, hra] at ht
    | some a =>
      cases hrd : r.dateField with
      | none => simp [normalize, hra, hrd] at ht
      | some d =>
        by_cases hp : pcn r.accountCode
        · simp only [normalize, hra, hrd, if_pos hp, Except.ok.injEq] at ht
          constructor
          · intro hk
            rw [← ht]
            simp [hk]
          · intro hk
            rw [← ht]
            simp [hk]
        · simp [normalize, hra, hrd, hp] at ht
  · cases hra : r.amountField with
    | none => simp [normalize, hra]
    | some a =>
      cases hrd : r.dateField with
      | none => simp [normalize, hra, hrd]
      | some d =>
        by_cases hp : pcn r.accountCode
        · simp [normalize, hra, hrd, hp, Except.map]
        · simp [normalize, hra, hrd, hp]
  · intro rs e he
    simp [normalizeAll, he]
  · intro rs t ht
    simp [normalizeAll, ht]

/-- C8: No tier throws for "no match found" — every tier's attempt is a
total function into groups and residues (there is no error outcome in its
type), and for each of the five tiers, on any pools, an input transaction
not consumed into a group is left in the unmatched residue passed onward. -/
theorem no_tier_throws (cfg : Config) (score : Transaction → Transaction → Nat)
    (t c : Nat) (rule : String) (elig : Transaction → Transaction → Bool)
    (ss ls : List Transaction) :
    (∀ s ∈ ss, s ∈ stmtsOf (runPairTier (pairStep t c rule elig) ss ls).1 ∨
        s ∈ (runPairTier (pairStep t c rule elig) ss ls).2.1) ∧
      (∀ l ∈ ls, l ∈ ledgsOf (runPairTier (pairStep t c rule elig) ss ls).1 ∨
        l ∈ (runPairTier (pairStep t c rule elig) ss ls).2.2) ∧
      (∀ s ∈ ss, s ∈ stmtsOf (runTier4 cfg ss ls).1 ∨
        s ∈ (runTier4 cfg ss ls).2.1) ∧
      (∀ l ∈ ls, l ∈ ledgsOf (runTier4 cfg ss ls).1 ∨
        l ∈ (runTier4 cfg ss ls).2.2) ∧
      (∀ s ∈ ss, s ∈ stmtsOf (runTier5 cfg score ss ls).1 ∨
        s ∈ (runTier5 cfg score ss ls).2.1.map Prod.fst) ∧
      (∀ l ∈ ls, l ∈ ledgsOf (runTier5 cfg score ss ls).1 ∨
        l ∈ (runTier5 cfg score ss ls).2.2) := by
  have hp := runPairTier_perm (pairStep_hstep t c rule elig) ss ls
  have h4 := runTier4_perm cfg ss ls
  have h5 := runTier5_perm cfg score ss ls
  refine ⟨?_, ?_, ?_, ?_, ?_, ?_⟩
  · intro s hs
    exact List.mem_append.mp (hp.1.mem_iff.mpr hs)
  · intro l hl
    exact List.mem_append.mp (hp.2.mem_iff.mpr hl)
  · intro s hs
    exact List.mem_append.mp (h4.1.mem_iff.mpr hs)
  · intro l hl
    exact List.mem_append.mp (h4.2.mem_iff.mpr hl)
  · intro s hs
    exact List.mem_append.mp (h5.1.mem_iff.mpr hs)
  · intro l hl
    exact List.mem_append.mp (h5.2.mem_iff.mpr hl)

/-- C9: the health_check endpoint reports database "connected" exactly when
DATABASE_URL is set to a non-empty value and "disconnected" otherwise,
while upload, reconciliation and ai_assistant are always "available". -/
theorem health_check_services (url : Option String) :
    ((health_check url).services.database = "connected" ↔
        ∃ s, url = some s ∧ s ≠ "") ∧
      ((health_check url).services.database = "disconnected" ↔
        ¬∃ s, url = some s ∧ s ≠ "") ∧
      (health_check url).services.upload = "available" ∧
      (health_check url).services.reconciliation = "available" ∧
      (health_check url).services.ai_assistant = "available" := by
  cases url with
  | none =>
    refine ⟨?_, ?_, rfl, rfl, rfl⟩
    · constructor
      · intro h
        exact absurd h (by decide)
      · rintro ⟨s, hs, -⟩
        cases hs
    · constructor
      · intro _
        rintro ⟨s, hs, -⟩
        cases hs
      · intro _
        rfl
  | some s =>
    by_cases hs : s = ""
    · subst hs
      refine ⟨?_, ?_, rfl, rfl, rfl⟩
      · constructor
        · intro h
          exact absurd h (by decide)
        · rintro ⟨s2, hs2, hne⟩
          injection hs2 with h2
          exact absurd h2.symm hne
      · constructor
        · intro _
          rintro ⟨s2, hs2, hne⟩
          injection hs2 with h2
          exact hne h2.symm
        · intro _
          rfl
    · refine ⟨?_, ?_, rfl, rfl, rfl⟩
      · constructor
        · intro _
          exact ⟨s, rfl, hs⟩
        · intro _
          simp [health_check, pyTruthy, hs]
      · constructor
        · intro h
          simp [health_check, pyTruthy, hs] at h
        · intro h
          exact absurd ⟨s, rfl, hs⟩ h

/-- C10: the add_cors_headers middleware mirrors the request Origin into
Access-Control-Allow-Origin with Access-Control-Allow-Credentials "true"
only when the Origin is one of the three whitelisted values; otherwise it
touches neither header; and it stamps the X-API-Server and X-API-Version
debug headers on every response. -/
theorem cors_debug_headers (origin : Option String) (now : String)
    (hs : List (String × String)) :
    (∀ o, origin = some o → o ∈ allowedDebugOrigins →
        getHeader (add_cors_headers origin now hs) "Access-Control-Allow-Origin" = some o ∧
        getHeader (add_cors_headers origin now hs) "Access-Control-Allow-Credentials" =
          some "true") ∧
      ((∀ o, origin = some o → o ∉ allowedDebugOrigins) →
        getHeader (add_cors_headers origin now hs) "Access-Control-Allow-Origin" =
            getHeader hs "Access-Control-Allow-Origin" ∧
          getHeader (add_cors_headers origin now hs) "Access-Control-Allow-Credentials" =
            getHeader hs "Access-Control-Allow-Credentials") ∧
      getHeader (add_cors_headers origin now hs) "X-API-Server" = some "rapproch-backend" ∧
      getHeader (add_cors_headers origin now hs) "X-API-Version" = some "1.0.0" := by
  have skipACAO : ∀ hs2 : List (String × String),
      getHeader (setHeader (setHeader (setHeader hs2 "X-API-Server" "rapproch-backend")
        "X-API-Version" "1.0.0") "X-Timestamp" now) "Access-Control-Allow-Origin" =
        getHeader hs2 "Access-Control-Allow-Origin" := by
    intro hs2
    rw [getHeader_setHeader_other _ _ _ _ (by decide),
      getHeader_setHeader_other _ _ _ _ (by decide),
      getHeader_setHeader_other _ _ _ _ (by decide)]
  have skipACAC : ∀ hs2 : List (String × String),
      getHeader (setHeader (setHeader (setHeader hs2 "X-API-Server" "rapproch-backend")
        "X-API-Version" "1.0.0") "X-Timestamp" now) "Access-Control-Allow-Credentials" =
        getHeader hs2 "Access-Control-Allow-Credentials" := by
    intro hs2
    rw [getHeader_setHeader_other _ _ _ _ (by decide),
      getHeader_setHeader_other _ _ _ _ (by decide),
      getHeader_setHeader_other _ _ _ _ (by decide)]
  have hXS : ∀ hs2 : List (String × String),
      getHeader (setHeader (setHeader (setHeader hs2 "X-API-Server" "rapproch-backend")
        "X-API-Version" "1.0.0") "X-Timestamp" now) "X-API-Server" =
        some "rapproch-backend" := by
    intro hs2
    rw [getHeader_setHeader_other _ _ _ _ (by decide),
      getHeader_setHeader_other _ _ _ _ (by decide)]
    exact getHeader_setHeader_same _ _ _
  have hXV : ∀ hs2 : List (String × String),
      getHeader (setHeader (setHeader (setHeader hs2 "X-API-Server" "rapproch-backend")
        "X-API-Version" "1.0.0") "X-Timestamp" now) "X-API-Version" = some "1.0.0" := by
    intro hs2
    rw [getHeader_setHeader_other _ _ _ _ (by decide)]
    exact getHeader_setHeader_same _ _ _
  cases origin with
  | none =>
    refine ⟨?_, ?_, hXS hs, hXV hs⟩
    · intro o ho
      cases ho
    · intro _
      exact ⟨skipACAO hs, skipACAC hs⟩
  | some o =>
    by_cases hc : o ≠ "" ∧ o ∈ allowedDebugOrigins
    · simp only [add_cors_headers, if_pos hc]
      refine ⟨?_, ?_, hXS _, hXV _⟩
      · intro o2 ho2 hmem
        injection ho2 with he
        subst he
        constructor
        · rw [skipACAO, getHeader_setHeader_other _ _ _ _ (by decide),
            getHeader_setHeader_other _ _ _ _ (by decide)]
          exact getHeader_setHeader_same _ _ _
        · rw [skipACAC, getHeader_setHeader_other _ _ _ _ (by decide)]
          exact getHeader_setHeader_same _ _ _
      · intro hnone
        exact absurd hc.2 (hnone o rfl)
    · simp only [add_cors_headers, if_neg hc]
      refine ⟨?_, ?_, hXS _, hXV _⟩
      · intro o2 ho2 hmem
        injection ho2 with he
        subst he
        exfalso
        apply hc
        refine ⟨?_, hmem⟩
        intro hemp
        subst hemp
        exact absurd hmem (by decide)
      · intro _
        exact ⟨skipACAO hs, skipACAC hs⟩

/-! ## Witnesses at concrete inputs -/

/-- Scenario A statement line. -/
def txA : Transaction := ⟨Source.statement, -1000, 10, "401", "CHQ123", 1⟩

/-- Scenario A ledger line, the exact Tier-1 counterpart of `txA`. -/
def txB : Transaction := ⟨Source.ledger, -1000, 10, "401", "CHQ123", 2⟩

/-- The group the Tier-1 step forms for `txA` against the pool `[txB]`,
before allocation. -/
def gExact : MatchGroup := ⟨1, 100, "exact-reference", [txA], [txB], 0, ""⟩

/-- The group the engine produces for scenario A, after allocation. -/
def gExactAlloc : MatchGroup := ⟨1, 100, "exact-reference", [txA], [txB], 1, fmtRecon 1⟩

/-- Scenario B statement line. -/
def stmtB : Transaction := ⟨Source.statement, 500, 10, "402", "INV9", 3⟩

/-- Scenario B ledger line: same code and amount, value date two days away,
different reference, so Tier 2 (not Tier 1) matches it. -/
def ledgB : Transaction := ⟨Source.ledger, 500, 12, "402", "PAY9", 4⟩

/-- The allocated Tier-2 group of scenario B. -/
def gB : MatchGroup := ⟨2, 90, "amount-date-window", [stmtB], [ledgB], 1, fmtRecon 1⟩

/-- A raw debit row every normalizer check accepts. -/
def rawGood : RawRecord := ⟨7, some 250, EntryKind.debit, some 11, "411", "FAC 77"⟩

/-- A PCN validator accepting every code. -/
def pcnAll : String → Bool := fun _ => true

/-- The transaction `rawGood` normalizes to as a statement row. -/
def txGood : Transaction := ⟨Source.statement, -250, 11, "411", "FAC 77", 7⟩

/-- Witness for C3: the determinism equation holds at a concrete run, and a
concrete Tier-1 selection is tie-break optimal. -/
theorem engine_determinism_witness :
    (runEngine {} scoreLow [txA] [txB] = runEngine {} scoreLow [txA] [txB]) ∧
      (∃ l, gExact.ledgs = [l] ∧ elig1 {} txA l = true ∧
        ∀ l2 ∈ [txB], elig1 {} txA l2 = true →
          lexLe (tieKey txA l) (tieKey txA l2) = true) :=
  ⟨(engine_determinism {} scoreLow scoreLow [txA] [txA] [txB] [txB]).1 rfl rfl rfl,
    (engine_determinism {} scoreLow scoreLow [] [] [] []).2 1 100 "exact-reference"
      (elig1 {}) txA [txB] gExact [] (by decide)⟩

/-- Witness for C4: scenario A's run yields an allocated group whose
formatted number the numbering theorem describes. -/
theorem monotonic_numbering_witness :
    gExactAlloc ∈ (runEngine {} scoreLow [txA] [txB]).groups ∧
      gExactAlloc.reconStr = fmtRecon gExactAlloc.reconNum :=
  ⟨by decide, (monotonic_numbering {} scoreLow [txA] [txB]).2.1 gExactAlloc (by decide)⟩

/-- Witness for C5: scenario B's Tier-2 group exists and its member pair
indeed fails the Tier-1 rule. -/
theorem tier_precedence_witness :
    gB ∈ (runEngine {} scoreLow [stmtB] [ledgB]).groups ∧ 2 ≤ gB.tier ∧
      elig1 {} stmtB ledgB = false :=
  ⟨by decide, by decide,
    tier_precedence {} scoreLow [stmtB] [ledgB] gB (by decide) (by decide)
      stmtB (by decide) ledgB (by decide)⟩

/-- Witness for C7: a concrete debit row normalizes successfully and the
contract's sign clause applies to it. -/
theorem normalizer_contract_witness :
    normalize pcnAll Source.statement rawGood = Except.ok txGood ∧
      txGood.amount ≤ 0 :=
  ⟨rfl,
    ((normalizer_contract pcnAll Source.statement rawGood).2.2.1 txGood rfl).1 rfl⟩

/-- Witness for C8: a statement line with no Tier-1 match is left in the
unmatched residue. -/
theorem no_tier_throws_witness :
    stmtD ∈ (runPairTier (pairStep 1 100 "exact-reference" (elig1 {})) [stmtD] [ledgD]).2.1 :=
  ((no_tier_throws {} scoreLow 1 100 "exact-reference" (elig1 {}) [stmtD] [ledgD]).1
    stmtD (by decide)).resolve_left (by decide)

/-- Witness for C10: a whitelisted Origin is mirrored with credentials. -/
theorem cors_debug_headers_witness :
    getHeader (add_cors_headers (some "http://localhost:3000") "t0" [])
        "Access-Control-Allow-Origin" = some "http://localhost:3000" ∧
      getHeader (add_cors_headers (some "http://localhost:3000") "t0" [])
        "Access-Control-Allow-Credentials" = some "true" :=
  (cors_debug_headers (some "http://localhost:3000") "t0" []).1
    "http://localhost:3000" rfl (by decide)

end Rapproch
